import Mathlib

/-!
Shallow embedding of the `retainer` crate (an in-process TTL cache).

Time is modelled as `Nat`; `Instant::now()` becomes an explicit `now : Nat`
argument threaded through every operation.  The `BTreeMap<K, CacheEntry<V>>`
store is modelled as an association list whose order is the map's key order
(keys are unique in the real map; theorems that need uniqueness take a
`Nodup` hypothesis).  Fallible constructions return `Option`, with `none`
standing for a Rust panic.
-/

namespace Retainer

/-- Instants are natural numbers of time units. -/
abbrev Instant := Nat

/-- `CacheExpiration { instant: Option<Instant> }` from `src/entry.rs`. -/
structure CacheExpiration where
  instant : Option Instant
deriving Repr, DecidableEq

/-- `CacheExpiration::none()`: no deadline. -/
def CacheExpiration.noExpiry : CacheExpiration := ⟨Option.none⟩

/-- `CacheExpiration::is_expired`: `self.instant().map(|e| e < now).unwrap_or(false)`. -/
def CacheExpiration.is_expired (e : CacheExpiration) (now : Instant) : Bool :=
  (e.instant.map (fun expiration => decide (expiration < now))).getD false

/-- `CacheExpiration::remaining`: saturating time until the deadline. -/
def CacheExpiration.remaining (e : CacheExpiration) (now : Instant) : Option Nat :=
  e.instant.map (fun i => i - now)

/-- `CacheEntry<V> { value: V, expiration: CacheExpiration }` from `src/entry.rs`. -/
structure CacheEntry (V : Type) where
  value : V
  expiration : CacheExpiration
deriving Repr, DecidableEq

/-- `CacheEntry::new`. -/
def CacheEntry.new {V : Type} (value : V) (expiration : CacheExpiration) : CacheEntry V :=
  ⟨value, expiration⟩

/-- The `unpack!` macro of `src/cache.rs`: hide an expired entry. -/
def unpack {V : Type} (now : Instant) (entry : CacheEntry V) : Option (CacheEntry V) :=
  if entry.expiration.is_expired now then none else some entry

/-- The store underlying `Cache<K, V>`: a `BTreeMap` in key order, as an
association list. -/
abbrev Store (K V : Type) := List (K × CacheEntry V)

/-- `BTreeMap::get`. -/
def mapGet {K V : Type} [DecidableEq K] : Store K V → K → Option (CacheEntry V)
  | [], _ => none
  | (k', e') :: rest, k => if k' = k then some e' else mapGet rest k

/-- `BTreeMap::insert`: stores the new entry at the key (replacing in place) and
returns the previous entry, if any. -/
def mapInsert {K V : Type} [DecidableEq K] :
    Store K V → K → CacheEntry V → Store K V × Option (CacheEntry V)
  | [], k, e => ([(k, e)], none)
  | (k', e') :: rest, k, e =>
    if k' = k then ((k, e) :: rest, some e')
    else
      let r := mapInsert rest k e
      ((k', e') :: r.1, r.2)

/-- `BTreeMap::remove`: deletes the mapping and returns the previous entry, if any. -/
def mapRemove {K V : Type} [DecidableEq K] :
    Store K V → K → Store K V × Option (CacheEntry V)
  | [], _ => ([], none)
  | (k', e') :: rest, k =>
    if k' = k then (rest, some e')
    else
      let r := mapRemove rest k
      ((k', e') :: r.1, r.2)

/-- `Cache::get`: `None` on an absent or expired key, else the guarded value. -/
def Cache.get {K V : Type} [DecidableEq K] (s : Store K V) (k : K) (now : Instant) :
    Option V :=
  ((mapGet s k).bind (unpack now)).map CacheEntry.value

/-- `Cache::len`. -/
def Cache.len {K V : Type} (s : Store K V) : Nat := s.length

/-- `Cache::expired`: count of resident entries whose expiration has passed. -/
def Cache.expired {K V : Type} (s : Store K V) (now : Instant) : Nat :=
  (s.filter (fun p => p.2.expiration.is_expired now)).length

/-- `Cache::unexpired`: count of resident entries whose expiration has not passed. -/
def Cache.unexpired {K V : Type} (s : Store K V) (now : Instant) : Nat :=
  (s.filter (fun p => !p.2.expiration.is_expired now)).length

/-- `Cache::insert`: wholesale replacement; the returned old value is filtered
through `unpack!`. -/
def Cache.insert {K V : Type} [DecidableEq K] (s : Store K V) (k : K) (v : V)
    (e : CacheExpiration) (now : Instant) : Store K V × Option V :=
  let r := mapInsert s k (CacheEntry.new v e)
  (r.1, (r.2.bind (unpack now)).map CacheEntry.value)

/-- `Cache::remove`: the returned old value is filtered through `unpack!`. -/
def Cache.remove {K V : Type} [DecidableEq K] (s : Store K V) (k : K) (now : Instant) :
    Store K V × Option V :=
  let r := mapRemove s k
  (r.1, (r.2.bind (unpack now)).map CacheEntry.value)

/-- `Cache::update`: `get_mut` then `unpack!`; applies `f` to the value in place
when the entry is present and live, otherwise leaves the store unchanged. -/
def Cache.update {K V : Type} [DecidableEq K] :
    Store K V → K → (V → V) → Instant → Store K V
  | [], _, _, _ => []
  | (k', e') :: rest, k, f, now =>
    if k' = k then
      if e'.expiration.is_expired now then (k', e') :: rest
      else (k', ⟨f e'.value, e'.expiration⟩) :: rest
    else (k', e') :: Cache.update rest k f now

/-- `Cache::set_expiration`: `get_mut` then `unpack!`; replaces the deadline
when the entry is present and live, otherwise leaves the store unchanged. -/
def Cache.set_expiration {K V : Type} [DecidableEq K] :
    Store K V → K → CacheExpiration → Instant → Store K V
  | [], _, _, _ => []
  | (k', e') :: rest, k, e, now =>
    if k' = k then
      if e'.expiration.is_expired now then (k', e') :: rest
      else (k', ⟨e'.value, e⟩) :: rest
    else (k', e') :: Cache.set_expiration rest k e now

/-- Whether `k` is resident with a live (unexpired) entry; Boolean for
decidability on concrete stores. -/
def liveAt {K V : Type} [DecidableEq K] (s : Store K V) (k : K) (now : Instant) : Bool :=
  match mapGet s k with
  | none => false
  | some e => !e.expiration.is_expired now

/-- Rust `usize::checked_sub`. -/
def checked_sub (a b : Nat) : Option Nat :=
  if b ≤ a then some (a - b) else none

/-- The iterator shift of `Cache::purge`:
`idx.checked_sub(prev).and_then(|idx| idx.checked_sub(1)).unwrap_or(0)`. -/
def skipOffset (idx prev : Nat) : Nat :=
  (((checked_sub idx prev).bind (fun d => checked_sub d 1))).getD 0

/-- The single forward walk of `Cache::purge`: for each sampled index (ascending),
skip `skipOffset idx prev` entries, take the next entry, and collect its key when
it is expired.  `iter` is the not-yet-consumed suffix of the key-ordered store. -/
def purgeWalk {K V : Type} (now : Instant) :
    List Nat → Nat → Store K V → List K
  | [], _, _ => []
  | idx :: rest, prev, iter =>
    match iter.drop (skipOffset idx prev) with
    | [] => []
    | (key, entry) :: iterRest =>
      (if entry.expiration.is_expired now then [key] else []) ++
        purgeWalk now rest idx iterRest

/-- The keys one inner iteration of `purge` marks for removal, given the sorted
sampled indices. -/
def purgeKeys {K V : Type} (s : Store K V) (indices : List Nat) (now : Instant) :
    List K :=
  purgeWalk now indices 0 s

/-- The exclusive-write phase of `purge`: remove each collected key. -/
def purgeApply {K V : Type} [DecidableEq K] (s : Store K V) (keys : List K) : Store K V :=
  keys.foldl (fun st k => (mapRemove st k).1) s

/-- One full inner iteration of `purge` (scan then delete) at a fixed time. -/
def purgeStep {K V : Type} [DecidableEq K] (s : Store K V) (indices : List Nat)
    (now : Instant) : Store K V :=
  purgeApply s (purgeKeys s indices now)

/-- Absolute store positions the purge walk inspects, given the sorted sampled
indices: position bookkeeping of `purgeWalk` with `pos` the iterator's cursor. -/
def inspectGo : List Nat → Nat → Nat → List Nat
  | [], _, _ => []
  | idx :: rest, prev, pos =>
    let p := pos + skipOffset idx prev
    p :: inspectGo rest idx (p + 1)

/-- Positions inspected by the walk, starting from `prev = 0` and cursor `0`. -/
def inspectedPositions (indices : List Nat) : List Nat :=
  inspectGo indices 0 0

/-- `purge`'s loop-exit test: `(gone as f64) < (sample as f64 * threshold)`,
modelled exactly over the rationals. -/
def purgeBreakCond (gone sample : Nat) (threshold : ℚ) : Bool :=
  decide ((gone : ℚ) < (sample : ℚ) * threshold)

/-- Upper bound of the machine time representation; `Instant::checked_add`
fails above it. -/
def instantMax : Nat := 2 ^ 64 - 1

/-- Rust `Instant::checked_add`: `none` when the sum is not representable. -/
def instantCheckedAdd (now dur : Nat) : Option Instant :=
  if now + dur ≤ instantMax then some (now + dur) else none

/-- `impl From<Duration> for CacheExpiration`:
`Instant::now().checked_add(duration).unwrap().into()`.  A `none` result
models the `unwrap` panic. -/
def expirationFromDuration (now dur : Nat) : Option CacheExpiration :=
  (instantCheckedAdd now dur).map (fun i => ⟨some i⟩)

/-- `impl From<u64> for CacheExpiration`: milliseconds via `Duration::from_millis`. -/
def expirationFromMillis (now millis : Nat) : Option CacheExpiration :=
  expirationFromDuration now millis

end Retainer

namespace Retainer

/-- `mapInsert` stores the new entry under the key. -/
theorem mapGet_mapInsert_self {K V : Type} [DecidableEq K] (s : Store K V) (k : K)
    (e : CacheEntry V) : mapGet (mapInsert s k e).1 k = some e := by
  induction s with
  | nil => simp [mapInsert, mapGet]
  | cons hd tl ih =>
    by_cases h : hd.1 = k
    · simp [mapInsert, h, mapGet]
    · simp [mapInsert, h, mapGet, ih]

/-- `mapInsert` returns exactly the previous entry at the key. -/
theorem mapInsert_snd {K V : Type} [DecidableEq K] (s : Store K V) (k : K)
    (e : CacheEntry V) : (mapInsert s k e).2 = mapGet s k := by
  induction s with
  | nil => simp [mapInsert, mapGet]
  | cons hd tl ih =>
    by_cases h : hd.1 = k
    · simp [mapInsert, h, mapGet]
    · simp [mapInsert, h, mapGet, ih]

/-- C7 counterexample: at `now` exactly equal to the deadline (`instant = some 5`,
`now = 5`) the code's `is_expired` is `false`, while the claim's
`instant ≤ now` formula demands `true`. -/
theorem c7_exact_deadline_not_expired :
    ¬ (CacheExpiration.is_expired ⟨some 5⟩ 5 = true ↔ 5 ≤ 5) := by
  decide

/-- C7 (amended): `is_expired` is true iff the entry has a deadline and that
deadline is strictly before the current time; an entry at exactly its deadline
is still live, and an entry with no deadline is never expired. -/
theorem is_expired_iff_deadline_strictly_past (e : CacheExpiration) (now : Instant) :
    e.is_expired now = true ↔ ∃ i, e.instant = some i ∧ i < now := by
  cases e with
  | mk instant =>
    cases instant with
    | none => simp [CacheExpiration.is_expired]
    | some i => simp [CacheExpiration.is_expired]

/-- C10: at a single fixed time, the expired and unexpired counts partition the
resident entries: `expired + unexpired = len`. -/
theorem expired_add_unexpired_eq_len {K V : Type} (s : Store K V) (now : Instant) :
    Cache.expired s now + Cache.unexpired s now = Cache.len s := by
  induction s with
  | nil => rfl
  | cons hd tl ih =>
    by_cases h : hd.2.expiration.is_expired now = true
    · simp [Cache.expired, Cache.unexpired, Cache.len, List.filter, h] at ih ⊢
      omega
    · simp [Cache.expired, Cache.unexpired, Cache.len, List.filter,
        Bool.not_eq_true] at ih ⊢
      simp [h] at ih ⊢
      omega

/-- C4: `get k` is empty when `k` is absent, empty when its entry's deadline has
passed on the code's own test (independently of any sweep), and otherwise the
stored value. -/
theorem cache_get_contract {K V : Type} [DecidableEq K] (s : Store K V) (k : K)
    (now : Instant) :
    (mapGet s k = none → Cache.get s k now = none) ∧
    (∀ e, mapGet s k = some e → e.expiration.is_expired now = true →
      Cache.get s k now = none) ∧
    (∀ e, mapGet s k = some e → e.expiration.is_expired now = false →
      Cache.get s k now = some e.value) := by
  refine ⟨fun h => ?_, fun e he hexp => ?_, fun e he hexp => ?_⟩
  · simp [Cache.get, h]
  · simp [Cache.get, he, unpack, hexp]
  · simp [Cache.get, he, unpack, hexp]

/-- C4 witness: a concrete two-entry store at `now = 5`; key 0 is live and
readable, key 1 is expired and hidden, key 2 is absent. -/
theorem cache_get_contract_witness :
    Cache.get ([(0, CacheEntry.new 7 ⟨some 9⟩), (1, CacheEntry.new 8 ⟨some 3⟩)] :
      Store Nat Nat) 2 5 = none ∧
    Cache.get ([(0, CacheEntry.new 7 ⟨some 9⟩), (1, CacheEntry.new 8 ⟨some 3⟩)] :
      Store Nat Nat) 1 5 = none ∧
    Cache.get ([(0, CacheEntry.new 7 ⟨some 9⟩), (1, CacheEntry.new 8 ⟨some 3⟩)] :
      Store Nat Nat) 0 5 = some 7 := by
  refine ⟨(cache_get_contract _ 2 5).1 (by decide),
    (cache_get_contract _ 1 5).2.1 (CacheEntry.new 8 ⟨some 3⟩) (by decide) (by decide),
    ?_⟩
  have h := (cache_get_contract ([(0, CacheEntry.new 7 ⟨some 9⟩),
    (1, CacheEntry.new 8 ⟨some 3⟩)] : Store Nat Nat) 0 5).2.2
    (CacheEntry.new 7 ⟨some 9⟩) (by decide) (by decide)
  exact h

/-- C5: `insert k v e` replaces any prior entry wholesale with the new entry, and
returns the previous value exactly when the previous entry existed and had not
expired at the moment of the call; an expired old entry yields an empty return. -/
theorem cache_insert_contract {K V : Type} [DecidableEq K] (s : Store K V) (k : K)
    (v : V) (e : CacheExpiration) (now : Instant) :
    mapGet (Cache.insert s k v e now).1 k = some (CacheEntry.new v e) ∧
    (∀ v1, (Cache.insert s k v e now).2 = some v1 ↔
      ∃ old, mapGet s k = some old ∧ old.expiration.is_expired now = false ∧
        old.value = v1) := by
  constructor
  · simpa [Cache.insert] using mapGet_mapInsert_self s k (CacheEntry.new v e)
  · intro v1
    have hsnd := mapInsert_snd s k (CacheEntry.new v e)
    constructor
    · intro h
      simp only [Cache.insert, hsnd] at h
      match hm : mapGet s k with
      | none => simp [hm] at h
      | some old =>
        refine ⟨old, rfl, ?_⟩
        simp only [hm, Option.some_bind, unpack] at h
        by_cases hexp : old.expiration.is_expired now = true
        · simp [hexp] at h
        · simp only [Bool.not_eq_true] at hexp
          simp [hexp] at h
          exact ⟨hexp, h⟩
    · rintro ⟨old, hm, hexp, hv⟩
      simp [Cache.insert, hsnd, hm, unpack, hexp, hv]

/-- C5 witness: inserting over a live entry returns the old value; inserting over
an expired entry returns empty; the new entry is stored in both cases. -/
theorem cache_insert_contract_witness :
    (Cache.insert ([(0, CacheEntry.new 7 ⟨some 9⟩)] : Store Nat Nat) 0 1
      CacheExpiration.noExpiry 5).2 = some 7 ∧
    (Cache.insert ([(0, CacheEntry.new 7 ⟨some 3⟩)] : Store Nat Nat) 0 1
      CacheExpiration.noExpiry 5).2 = none ∧
    mapGet (Cache.insert ([(0, CacheEntry.new 7 ⟨some 3⟩)] : Store Nat Nat) 0 1
      CacheExpiration.noExpiry 5).1 0 = some (CacheEntry.new 1 CacheExpiration.noExpiry) := by
  refine ⟨?_, ?_, (cache_insert_contract ([(0, CacheEntry.new 7 ⟨some 3⟩)] :
    Store Nat Nat) 0 1 CacheExpiration.noExpiry 5).1⟩
  · exact ((cache_insert_contract ([(0, CacheEntry.new 7 ⟨some 9⟩)] : Store Nat Nat)
      0 1 CacheExpiration.noExpiry 5).2 7).2
      ⟨CacheEntry.new 7 ⟨some 9⟩, by decide, by decide, rfl⟩
  · by_contra h
    obtain ⟨v1, hv1⟩ := Option.ne_none_iff_exists'.mp h
    obtain ⟨old, hm, hexp, _⟩ := ((cache_insert_contract ([(0, CacheEntry.new 7
      ⟨some 3⟩)] : Store Nat Nat) 0 1 CacheExpiration.noExpiry 5).2 v1).1 hv1
    simp [mapGet] at hm
    rw [← hm] at hexp
    simp [CacheEntry.new, CacheExpiration.is_expired] at hexp

/-- A key outside the key list is not found. -/
theorem mapGet_eq_none_of_not_mem {K V : Type} [DecidableEq K] (s : Store K V) (k : K)
    (h : k ∉ s.map Prod.fst) : mapGet s k = none := by
  induction s with
  | nil => rfl
  | cons hd tl ih =>
    simp only [List.map_cons, List.mem_cons] at h
    push_neg at h
    have hne : hd.1 ≠ k := fun he => h.1 he.symm
    simp [mapGet, hne, ih h.2]

/-- `mapRemove` returns exactly the previous entry at the key. -/
theorem mapRemove_snd {K V : Type} [DecidableEq K] (s : Store K V) (k : K) :
    (mapRemove s k).2 = mapGet s k := by
  induction s with
  | nil => rfl
  | cons hd tl ih =>
    by_cases h : hd.1 = k
    · simp [mapRemove, h, mapGet]
    · simp [mapRemove, h, mapGet, ih]

/-- With unique keys, the removed key is gone from the store. -/
theorem mapGet_mapRemove_self {K V : Type} [DecidableEq K] (s : Store K V) (k : K)
    (hnd : (s.map Prod.fst).Nodup) : mapGet (mapRemove s k).1 k = none := by
  induction s with
  | nil => rfl
  | cons hd tl ih =>
    simp only [List.map_cons, List.nodup_cons] at hnd
    by_cases h : hd.1 = k
    · simp only [mapRemove, if_pos h]
      exact mapGet_eq_none_of_not_mem tl k (h ▸ hnd.1)
    · simp [mapRemove, h, mapGet, ih hnd.2]

/-- A found key means a nonempty store. -/
theorem mapGet_isSome_length_pos {K V : Type} [DecidableEq K] (s : Store K V) (k : K)
    (h : (mapGet s k).isSome = true) : 0 < s.length := by
  cases s with
  | nil => simp [mapGet] at h
  | cons hd tl => simp

/-- `mapRemove` shrinks the store by one exactly when the key was resident. -/
theorem mapRemove_length {K V : Type} [DecidableEq K] (s : Store K V) (k : K) :
    (mapRemove s k).1.length =
      if (mapGet s k).isSome then s.length - 1 else s.length := by
  induction s with
  | nil => rfl
  | cons hd tl ih =>
    by_cases h : hd.1 = k
    · simp [mapRemove, h, mapGet]
    · by_cases h2 : (mapGet tl k).isSome
      · have hpos := mapGet_isSome_length_pos tl k h2
        simp [mapRemove, h, mapGet, ih, h2]
        omega
      · simp [mapRemove, h, mapGet, ih, h2]

/-- C6 counterexample: a store holding one expired entry under key 0, at
`now = 5`.  Removal drops `len` from 1 to 0 although the key was not live, so
"len decreases by one iff the key was previously present and live" fails. -/
theorem c6_len_drops_for_expired_entry :
    ¬ ((Cache.len (Cache.remove ([(0, CacheEntry.new 0 ⟨some 0⟩)] : Store Nat Nat)
        0 5).1 + 1 = Cache.len ([(0, CacheEntry.new 0 ⟨some 0⟩)] : Store Nat Nat)) ↔
      liveAt ([(0, CacheEntry.new 0 ⟨some 0⟩)] : Store Nat Nat) 0 5 = true) := by
  decide

/-- C6 (amended): with unique keys, after `remove k` a `get k` is empty; the
removed value is returned exactly when the old entry was present and unexpired;
and `len` decreases by one iff `k` was previously resident — whether live or
expired. -/
theorem cache_remove_contract {K V : Type} [DecidableEq K] (s : Store K V) (k : K)
    (now : Instant) (hnd : (s.map Prod.fst).Nodup) :
    (∀ now2, Cache.get (Cache.remove s k now).1 k now2 = none) ∧
    (∀ v, (Cache.remove s k now).2 = some v ↔
      ∃ e, mapGet s k = some e ∧ e.expiration.is_expired now = false ∧
        e.value = v) ∧
    Cache.len (Cache.remove s k now).1 =
      if (mapGet s k).isSome then Cache.len s - 1 else Cache.len s := by
  refine ⟨fun now2 => ?_, fun v => ?_, ?_⟩
  · simp [Cache.get, Cache.remove, mapGet_mapRemove_self s k hnd]
  · have hsnd := mapRemove_snd s k
    constructor
    · intro h
      simp only [Cache.remove, hsnd] at h
      match hm : mapGet s k with
      | none => simp [hm] at h
      | some old =>
        refine ⟨old, rfl, ?_⟩
        simp only [hm, Option.some_bind, unpack] at h
        by_cases hexp : old.expiration.is_expired now = true
        · simp [hexp] at h
        · simp only [Bool.not_eq_true] at hexp
          simp [hexp] at h
          exact ⟨hexp, h⟩
    · rintro ⟨old, hm, hexp, hv⟩
      simp [Cache.remove, hsnd, hm, unpack, hexp, hv]
  · simpa [Cache.remove, Cache.len] using mapRemove_length s k

/-- C6 witness: removing a live entry empties the store, returns the value, and
drops `len` from 1 to 0. -/
theorem cache_remove_contract_witness :
    Cache.get (Cache.remove ([(0, CacheEntry.new 7 ⟨some 9⟩)] : Store Nat Nat)
      0 5).1 0 5 = none ∧
    (Cache.remove ([(0, CacheEntry.new 7 ⟨some 9⟩)] : Store Nat Nat) 0 5).2 = some 7 ∧
    Cache.len (Cache.remove ([(0, CacheEntry.new 7 ⟨some 9⟩)] : Store Nat Nat)
      0 5).1 = 0 := by
  have h := cache_remove_contract ([(0, CacheEntry.new 7 ⟨some 9⟩)] : Store Nat Nat)
    0 5 (by decide)
  refine ⟨h.1 5, (h.2.1 7).2 ⟨CacheEntry.new 7 ⟨some 9⟩, rfl, by decide, rfl⟩, ?_⟩
  simpa [mapGet, Cache.len] using h.2.2

/-- `update` on an absent key leaves the store untouched. -/
theorem update_absent {K V : Type} [DecidableEq K] (s : Store K V) (k : K) (f : V → V)
    (now : Instant) (h : mapGet s k = none) : Cache.update s k f now = s := by
  induction s with
  | nil => rfl
  | cons hd tl ih =>
    by_cases hk : hd.1 = k
    · simp [mapGet, hk] at h
    · have htl : mapGet tl k = none := by simpa [mapGet, hk] using h
      simp [Cache.update, hk, ih htl]

/-- `update` on an expired entry leaves the store untouched. -/
theorem update_expired {K V : Type} [DecidableEq K] (s : Store K V) (k : K) (f : V → V)
    (now : Instant) (e : CacheEntry V) (h : mapGet s k = some e)
    (hexp : e.expiration.is_expired now = true) : Cache.update s k f now = s := by
  induction s with
  | nil => simp [mapGet] at h
  | cons hd tl ih =>
    obtain ⟨k1, e1⟩ := hd
    by_cases hk : k1 = k
    · subst hk
      have he : e1 = e := by simpa [mapGet] using h
      subst he
      simp [Cache.update, hexp]
    · have htl : mapGet tl k = some e := by simpa [mapGet, hk] using h
      simp [Cache.update, hk, ih htl]

/-- `update` on a live entry rewrites exactly the value, keeping the expiration. -/
theorem update_live {K V : Type} [DecidableEq K] (s : Store K V) (k : K) (f : V → V)
    (now : Instant) (e : CacheEntry V) (h : mapGet s k = some e)
    (hexp : e.expiration.is_expired now = false) :
    mapGet (Cache.update s k f now) k = some ⟨f e.value, e.expiration⟩ := by
  induction s with
  | nil => simp [mapGet] at h
  | cons hd tl ih =>
    by_cases hk : hd.1 = k
    · have he : hd.2 = e := by simpa [mapGet, hk] using h
      simp [Cache.update, hk, he, hexp, mapGet]
    · have htl : mapGet tl k = some e := by simpa [mapGet, hk] using h
      simp [Cache.update, hk, mapGet, ih htl]

/-- `update` never touches any other key. -/
theorem update_frame {K V : Type} [DecidableEq K] (s : Store K V) (k : K) (f : V → V)
    (now : Instant) (k2 : K) (hne : k2 ≠ k) :
    mapGet (Cache.update s k f now) k2 = mapGet s k2 := by
  induction s with
  | nil => rfl
  | cons hd tl ih =>
    obtain ⟨k1, e1⟩ := hd
    by_cases hk : k1 = k
    · subst hk
      have hk2 : k1 ≠ k2 := fun he => hne he.symm
      by_cases hexp : e1.expiration.is_expired now = true
      · simp [Cache.update, hexp]
      · simp [Cache.update, hexp, mapGet, hk2]
    · simp [Cache.update, hk, mapGet, ih]

/-- `set_expiration` on an absent key leaves the store untouched. -/
theorem setExpiration_absent {K V : Type} [DecidableEq K] (s : Store K V) (k : K)
    (e2 : CacheExpiration) (now : Instant) (h : mapGet s k = none) :
    Cache.set_expiration s k e2 now = s := by
  induction s with
  | nil => rfl
  | cons hd tl ih =>
    by_cases hk : hd.1 = k
    · simp [mapGet, hk] at h
    · have htl : mapGet tl k = none := by simpa [mapGet, hk] using h
      simp [Cache.set_expiration, hk, ih htl]

/-- `set_expiration` on an expired entry leaves the store untouched. -/
theorem setExpiration_expired {K V : Type} [DecidableEq K] (s : Store K V) (k : K)
    (e2 : CacheExpiration) (now : Instant) (e : CacheEntry V)
    (h : mapGet s k = some e) (hexp : e.expiration.is_expired now = true) :
    Cache.set_expiration s k e2 now = s := by
  induction s with
  | nil => simp [mapGet] at h
  | cons hd tl ih =>
    obtain ⟨k1, e1⟩ := hd
    by_cases hk : k1 = k
    · subst hk
      have he : e1 = e := by simpa [mapGet] using h
      subst he
      simp [Cache.set_expiration, hexp]
    · have htl : mapGet tl k = some e := by simpa [mapGet, hk] using h
      simp [Cache.set_expiration, hk, ih htl]

/-- `set_expiration` on a live entry rewrites exactly the deadline, keeping the value. -/
theorem setExpiration_live {K V : Type} [DecidableEq K] (s : Store K V) (k : K)
    (e2 : CacheExpiration) (now : Instant) (e : CacheEntry V)
    (h : mapGet s k = some e) (hexp : e.expiration.is_expired now = false) :
    mapGet (Cache.set_expiration s k e2 now) k = some ⟨e.value, e2⟩ := by
  induction s with
  | nil => simp [mapGet] at h
  | cons hd tl ih =>
    by_cases hk : hd.1 = k
    · have he : hd.2 = e := by simpa [mapGet, hk] using h
      simp [Cache.set_expiration, hk, he, hexp, mapGet]
    · have htl : mapGet tl k = some e := by simpa [mapGet, hk] using h
      simp [Cache.set_expiration, hk, mapGet, ih htl]

/-- `set_expiration` never touches any other key. -/
theorem setExpiration_frame {K V : Type} [DecidableEq K] (s : Store K V) (k : K)
    (e2 : CacheExpiration) (now : Instant) (k2 : K) (hne : k2 ≠ k) :
    mapGet (Cache.set_expiration s k e2 now) k2 = mapGet s k2 := by
  induction s with
  | nil => rfl
  | cons hd tl ih =>
    obtain ⟨k1, e1⟩ := hd
    by_cases hk : k1 = k
    · subst hk
      have hk2 : k1 ≠ k2 := fun he => hne he.symm
      by_cases hexp : e1.expiration.is_expired now = true
      · simp [Cache.set_expiration, hexp]
      · simp [Cache.set_expiration, hexp, mapGet, hk2]
    · simp [Cache.set_expiration, hk, mapGet, ih]

/-- C8: `update` and `set_expiration` are silent no-ops on an absent or expired
key; on a live key, `update` applies `f` to the value keeping the expiration,
`set_expiration` replaces the deadline keeping the value, and neither touches
any other key. -/
theorem cache_update_set_expiration_contract {K V : Type} [DecidableEq K]
    (s : Store K V) (k : K) (f : V → V) (e2 : CacheExpiration) (now : Instant) :
    (mapGet s k = none →
      Cache.update s k f now = s ∧ Cache.set_expiration s k e2 now = s) ∧
    (∀ e, mapGet s k = some e → e.expiration.is_expired now = true →
      Cache.update s k f now = s ∧ Cache.set_expiration s k e2 now = s) ∧
    (∀ e, mapGet s k = some e → e.expiration.is_expired now = false →
      mapGet (Cache.update s k f now) k = some ⟨f e.value, e.expiration⟩ ∧
      mapGet (Cache.set_expiration s k e2 now) k = some ⟨e.value, e2⟩) ∧
    (∀ k2, k2 ≠ k →
      mapGet (Cache.update s k f now) k2 = mapGet s k2 ∧
      mapGet (Cache.set_expiration s k e2 now) k2 = mapGet s k2) := by
  refine ⟨fun h => ⟨update_absent s k f now h, setExpiration_absent s k e2 now h⟩,
    fun e he hexp => ⟨update_expired s k f now e he hexp,
      setExpiration_expired s k e2 now e he hexp⟩,
    fun e he hexp => ⟨update_live s k f now e he hexp,
      setExpiration_live s k e2 now e he hexp⟩,
    fun k2 hne => ⟨update_frame s k f now k2 hne,
      setExpiration_frame s k e2 now k2 hne⟩⟩

/-- C8 witness: on a two-entry store at `now = 5` (key 0 live, key 1 expired),
updating key 0 with `+ 1` rewrites its value to 2 keeping its deadline, setting
its expiration installs the new deadline keeping the value, key 1 and key 7 are
no-ops, and key 1 is untouched by operations on key 0. -/
theorem cache_update_set_expiration_contract_witness :
    mapGet (Cache.update ([(0, CacheEntry.new 1 ⟨some 9⟩), (1, CacheEntry.new 5
      ⟨some 3⟩)] : Store Nat Nat) 0 (· + 1) 5) 0 = some ⟨2, ⟨some 9⟩⟩ ∧
    mapGet (Cache.set_expiration ([(0, CacheEntry.new 1 ⟨some 9⟩),
      (1, CacheEntry.new 5 ⟨some 3⟩)] : Store Nat Nat) 0 ⟨some 20⟩ 5) 0 =
      some ⟨1, ⟨some 20⟩⟩ ∧
    Cache.update ([(0, CacheEntry.new 1 ⟨some 9⟩), (1, CacheEntry.new 5 ⟨some 3⟩)] :
      Store Nat Nat) 1 (· + 1) 5 = [(0, CacheEntry.new 1 ⟨some 9⟩),
      (1, CacheEntry.new 5 ⟨some 3⟩)] ∧
    Cache.set_expiration ([(0, CacheEntry.new 1 ⟨some 9⟩), (1, CacheEntry.new 5
      ⟨some 3⟩)] : Store Nat Nat) 7 ⟨some 20⟩ 5 = [(0, CacheEntry.new 1 ⟨some 9⟩),
      (1, CacheEntry.new 5 ⟨some 3⟩)] ∧
    mapGet (Cache.update ([(0, CacheEntry.new 1 ⟨some 9⟩), (1, CacheEntry.new 5
      ⟨some 3⟩)] : Store Nat Nat) 0 (· + 1) 5) 1 = some (CacheEntry.new 5 ⟨some 3⟩) := by
  refine ⟨((cache_update_set_expiration_contract _ 0 (· + 1) ⟨some 20⟩ 5).2.2.1
      (CacheEntry.new 1 ⟨some 9⟩) (by decide) (by decide)).1,
    ((cache_update_set_expiration_contract _ 0 (· + 1) ⟨some 20⟩ 5).2.2.1
      (CacheEntry.new 1 ⟨some 9⟩) (by decide) (by decide)).2,
    ((cache_update_set_expiration_contract _ 1 (· + 1) ⟨some 20⟩ 5).2.1
      (CacheEntry.new 5 ⟨some 3⟩) (by decide) (by decide)).1,
    ((cache_update_set_expiration_contract _ 7 (· + 1) ⟨some 20⟩ 5).1 (by decide)).2,
    ?_⟩
  have h := ((cache_update_set_expiration_contract ([(0, CacheEntry.new 1 ⟨some 9⟩),
    (1, CacheEntry.new 5 ⟨some 3⟩)] : Store Nat Nat) 0 (· + 1) ⟨some 20⟩ 5).2.2.2
    1 (by decide)).1
  rw [h]
  decide

/-- C1: the first skip gap is off by one.  With `total = 2` and sampled position
set `{1}`, the walk computes offset `(1 - 0) - 1 = 0`, so it inspects position 0
instead of the sampled position 1; the expired entry at position 1 is never
inspected and its key is not collected. -/
theorem c1_walk_inspects_wrong_position :
    inspectedPositions [1] = [0] ∧ inspectedPositions [1] ≠ [1] ∧
    purgeKeys ([(0, CacheEntry.new 10 CacheExpiration.noExpiry),
      (1, CacheEntry.new 11 ⟨some 3⟩)] : Store Nat Nat) [1] 5 = [] := by
  decide

/-- Every key the purge walk collects belongs to an entry of the iterated
suffix that tested expired. -/
theorem mem_purgeWalk {K V : Type} (now : Instant) (indices : List Nat) (prev : Nat)
    (iter : Store K V) (k : K) (h : k ∈ purgeWalk now indices prev iter) :
    ∃ e, (k, e) ∈ iter ∧ e.expiration.is_expired now = true := by
  induction indices generalizing prev iter with
  | nil => simp [purgeWalk] at h
  | cons idx rest ih =>
    rw [purgeWalk] at h
    cases hdrop : iter.drop (skipOffset idx prev) with
    | nil =>
      rw [hdrop] at h
      simp at h
    | cons pe iterRest =>
      rw [hdrop] at h
      obtain ⟨key, entry⟩ := pe
      simp only [List.mem_append] at h
      have hsub : ∀ x, x ∈ iter.drop (skipOffset idx prev) → x ∈ iter :=
        fun x hx => List.mem_of_mem_drop hx
      rcases h with h | h
      · by_cases hexp : entry.expiration.is_expired now = true
        · simp [hexp] at h
          subst h
          exact ⟨entry, hsub _ (by rw [hdrop]; exact List.mem_cons_self _ _), hexp⟩
        · simp [hexp] at h
      · obtain ⟨e, he, hexpe⟩ := ih idx iterRest h
        exact ⟨e, hsub _ (by rw [hdrop]; exact List.mem_cons_of_mem _ he), hexpe⟩

/-- Removing a different key keeps a pair resident. -/
theorem mem_mapRemove_of_ne {K V : Type} [DecidableEq K] (s : Store K V)
    (k1 k : K) (e : CacheEntry V) (h : (k, e) ∈ s) (hne : k ≠ k1) :
    (k, e) ∈ (mapRemove s k1).1 := by
  induction s with
  | nil => simp at h
  | cons hd tl ih =>
    obtain ⟨kh, eh⟩ := hd
    by_cases hk : kh = k1
    · subst hk
      rcases List.mem_cons.mp h with h | h
      · have hkk : k = kh := congrArg Prod.fst h
        exact (hne hkk).elim
      · simpa [mapRemove] using h
    · rcases List.mem_cons.mp h with h | h
      · rw [h]
        simp [mapRemove, hk]
      · simp only [mapRemove, if_neg hk]
        exact List.mem_cons_of_mem _ (ih h)

/-- A pair whose key is not in the removal list survives the delete phase. -/
theorem mem_purgeApply {K V : Type} [DecidableEq K] (s : Store K V) (keys : List K)
    (k : K) (e : CacheEntry V) (h : (k, e) ∈ s) (hk : k ∉ keys) :
    (k, e) ∈ purgeApply s keys := by
  induction keys generalizing s with
  | nil => exact h
  | cons k1 rest ih =>
    simp only [purgeApply, List.foldl_cons]
    exact ih (mapRemove s k1).1
      (mem_mapRemove_of_ne s k1 k e h (fun he => hk (he ▸ List.mem_cons_self _ _)))
      (fun hm => hk (List.mem_cons_of_mem _ hm))

/-- With unique keys, a key determines its entry. -/
theorem nodup_key_unique {K V : Type} (s : Store K V)
    (hnd : (s.map Prod.fst).Nodup) (k : K) (e1 e2 : CacheEntry V)
    (h1 : (k, e1) ∈ s) (h2 : (k, e2) ∈ s) : e1 = e2 := by
  induction s with
  | nil => simp at h1
  | cons hd tl ih =>
    obtain ⟨kh, eh⟩ := hd
    simp only [List.map_cons, List.nodup_cons] at hnd
    rcases List.mem_cons.mp h1 with h1 | h1 <;> rcases List.mem_cons.mp h2 with h2 | h2
    · exact (congrArg Prod.snd h1).trans (congrArg Prod.snd h2).symm
    · have hk : k = kh := congrArg Prod.fst h1
      have hm : k ∈ List.map Prod.fst tl := List.mem_map_of_mem Prod.fst h2
      exact absurd (hk ▸ hm) hnd.1
    · have hk : k = kh := congrArg Prod.fst h2
      have hm : k ∈ List.map Prod.fst tl := List.mem_map_of_mem Prod.fst h1
      exact absurd (hk ▸ hm) hnd.1
    · exact ih hnd.2 h1 h2

/-- C2: for every store contents and every sampled index list, an inner purge
iteration only collects keys of entries that tested expired at inspection time,
and (with the map's unique keys) every unexpired resident entry survives the
iteration untouched. -/
theorem purge_deletes_only_expired {K V : Type} [DecidableEq K] (s : Store K V)
    (indices : List Nat) (now : Instant) :
    (∀ k, k ∈ purgeKeys s indices now →
      ∃ e, (k, e) ∈ s ∧ e.expiration.is_expired now = true) ∧
    ((s.map Prod.fst).Nodup → ∀ k e, (k, e) ∈ s →
      e.expiration.is_expired now = false → (k, e) ∈ purgeStep s indices now) := by
  constructor
  · exact fun k h => mem_purgeWalk now indices 0 s k h
  · intro hnd k e hmem hexp
    apply mem_purgeApply s _ k e hmem
    intro hk
    obtain ⟨e2, hmem2, hexp2⟩ := mem_purgeWalk now indices 0 s k hk
    rw [nodup_key_unique s hnd k e2 e hmem2 hmem] at hexp2
    rw [hexp] at hexp2
    exact Bool.false_ne_true hexp2

/-- C2 witness: with key 0 expired and key 1 live at `now = 5` and both
positions sampled, only key 0 is collected and the live pair survives the
iteration. -/
theorem purge_deletes_only_expired_witness :
    (∃ e, ((0 : Nat), e) ∈ ([(0, CacheEntry.new 10 ⟨some 3⟩),
      (1, CacheEntry.new 11 ⟨some 9⟩)] : Store Nat Nat) ∧
      e.expiration.is_expired 5 = true) ∧
    ((1 : Nat), CacheEntry.new 11 ⟨some 9⟩) ∈
      purgeStep ([(0, CacheEntry.new 10 ⟨some 3⟩),
        (1, CacheEntry.new 11 ⟨some 9⟩)] : Store Nat Nat) [0, 1] 5 := by
  refine ⟨(purge_deletes_only_expired ([(0, CacheEntry.new 10 ⟨some 3⟩),
      (1, CacheEntry.new 11 ⟨some 9⟩)] : Store Nat Nat) [0, 1] 5).1 0 (by decide),
    (purge_deletes_only_expired ([(0, CacheEntry.new 10 ⟨some 3⟩),
      (1, CacheEntry.new 11 ⟨some 9⟩)] : Store Nat Nat) [0, 1] 5).2 (by decide)
      1 (CacheEntry.new 11 ⟨some 9⟩) (by decide) (by decide)⟩

/-- C3 counterexample: with `threshold = 0`, a batch of `sample = 1` keys that
found nothing expired (`gone = 0`) does not fire the loop-exit test
`gone < sample * threshold` — purge re-samples instead of stopping. -/
theorem c3_zero_threshold_does_not_stop : purgeBreakCond 0 1 0 = false := by
  simp [purgeBreakCond]

/-- C3 (amended): whenever the effective product `sample * threshold` is
positive — in particular for every positive threshold once the batch is
nonempty — a batch with `gone = 0` fires the loop-exit test, so the inner purge
loop stops. -/
theorem purge_stops_on_zero_gone (sample : Nat) (threshold : ℚ)
    (h : 0 < (sample : ℚ) * threshold) :
    purgeBreakCond 0 sample threshold = true := by
  simpa [purgeBreakCond] using h

/-- C3 witness: `sample = 1`, `threshold = 1/4`. -/
theorem purge_stops_on_zero_gone_witness :
    0 < ((1 : Nat) : ℚ) * (1 / 4) ∧ purgeBreakCond 0 1 (1 / 4) = true :=
  ⟨by norm_num, purge_stops_on_zero_gone 1 (1 / 4) (by norm_num)⟩

/-- C9: the duration (and millisecond) constructors fail — modelling the
`unwrap` panic — exactly when `now + duration` overflows the time
representation; on success the deadline is exactly `now + duration`, never a
silently wrapped past or far-future instant. -/
theorem expiration_from_duration_no_silent_wrap (now dur : Nat) :
    (expirationFromDuration now dur = none ↔ instantMax < now + dur) ∧
    (∀ e, expirationFromDuration now dur = some e →
      e.instant = some (now + dur) ∧ now ≤ now + dur) := by
  constructor
  · constructor
    · intro hnone
      by_contra hlt
      push_neg at hlt
      simp [expirationFromDuration, instantCheckedAdd, hlt] at hnone
    · intro hlt
      have h : ¬ (now + dur ≤ instantMax) := by omega
      simp [expirationFromDuration, instantCheckedAdd, h]
  · intro e he
    by_cases h : now + dur ≤ instantMax
    · simp only [expirationFromDuration, instantCheckedAdd, if_pos h,
        Option.map_some'] at he
      have he2 : e = ⟨some (now + dur)⟩ := by
        injection he with h3
        exact h3.symm
      subst he2
      exact ⟨rfl, Nat.le_add_right _ _⟩
    · simp [expirationFromDuration, instantCheckedAdd, if_neg h] at he

/-- C9 witness: at `now = 2`, a duration of 3 yields the exact deadline 5,
while a duration overflowing the representation yields the failure marker. -/
theorem expiration_from_duration_no_silent_wrap_witness :
    ((⟨some 5⟩ : CacheExpiration).instant = some (2 + 3) ∧ 2 ≤ 2 + 3) ∧
    expirationFromDuration instantMax 1 = none :=
  ⟨(expiration_from_duration_no_silent_wrap 2 3).2 ⟨some 5⟩ (by rfl),
    (expiration_from_duration_no_silent_wrap instantMax 1).1.mpr
      (Nat.lt_succ_self instantMax)⟩

end Retainer
